import Mathlib

/-!
Verification development for the VSM Phoenix document organizer
(`scripts/tools/document_organizer.py`).

The script is a linear pipeline over markdown documents: it scans a
directory tree, extracts metadata, scores quality, categorizes, detects
exact and near duplicates, and copies files into a new layout with
normalized names.  This file gives a shallow embedding of the parts of
that pipeline that the stated properties are about, and proves or
refutes each property.

Modelling conventions:
* Python strings are modelled as `List Char` (`Str`).  `str.lower()`,
  `str.isupper()` and `\s` are modelled over ASCII, which is the
  alphabet the script's own patterns use.
* `hashlib.md5` digests are modelled injectively: the digest key carries
  the hashed content itself (constructor `DupKey.digest`).  Hex digests
  never collide with the `"similar_..."` keys, which is modelled by
  using a separate constructor `DupKey.similar`.
* Python `dict` is modelled as an insertion-ordered association list;
  `defaultdict(list)` appends are `addPaths`; `list(set(...))` is
  `List.dedup` (the Python iteration order of a `set` is unspecified,
  so properties about group contents are stated up to the underlying
  set of paths).
* The float comparison `similarity_ratio(...) > 0.85` is modelled
  exactly over `ℚ`.  Because `ℚ` normalization is not kernel
  computable, the executable branch test `similarityGT` uses the
  cross-multiplied integer form; `similarity_gt_iff` proves it equal to
  the rational comparison.
-/

abbrev Str := List Char

def toL (s : String) : Str := s.toList

/-- `a` occurs at the start of `l` (used for Python `str.startswith` and as
the kernel of substring search). -/
def startsWithL : Str → Str → Bool
  | [], _ => true
  | _ :: _, [] => false
  | a :: p, b :: l => a == b && startsWithL p l

/-- Python's `pat in s`: `pat` occurs contiguously somewhere in `s`. -/
def hasSub (pat : Str) : Str → Bool
  | [] => startsWithL pat []
  | l@(_ :: t) => startsWithL pat l || hasSub pat t

def endsWithL (suf l : Str) : Bool := startsWithL suf.reverse l.reverse

/-- ASCII model of Python `str.lower` on one character. -/
def pyLower (c : Char) : Char :=
  if 65 ≤ c.toNat ∧ c.toNat ≤ 90 then Char.ofNat (c.toNat + 32) else c

def lowerL (l : Str) : Str := l.map pyLower

/-- ASCII whitespace, the `\s` class and `str.split()` separators. -/
def isPySpace (c : Char) : Bool :=
  c == ' ' || c == Char.ofNat 9 || c == Char.ofNat 10 || c == Char.ofNat 13
    || c == Char.ofNat 11 || c == Char.ofNat 12

def isAsciiLetter (c : Char) : Bool :=
  (65 ≤ c.toNat && c.toNat ≤ 90) || (97 ≤ c.toNat && c.toNat ≤ 122)

def isAsciiUpperC (c : Char) : Bool := 65 ≤ c.toNat && c.toNat ≤ 90

/-- Python `str.isupper()` (ASCII): at least one cased character and no
lowercase cased character. -/
def pyIsUpper (l : Str) : Bool :=
  l.any isAsciiLetter && l.all (fun c => !isAsciiLetter c || isAsciiUpperC c)

/-- `re.search(r'shit|fuck|damn', content.lower())` as a Boolean. -/
def hasProfanity (content : Str) : Bool :=
  let low := lowerL content
  hasSub (toL ("shit")) low || hasSub (toL ("fuck")) low || hasSub (toL ("damn")) low

/-- The pattern `#\s+` matches at the start of `l`. -/
def headerAt : Str → Bool
  | '#' :: c :: _ => isPySpace c
  | _ => false

def hasHeaderAux : Str → Bool
  | [] => false
  | c :: t => (c == Char.ofNat 10 && headerAt t) || hasHeaderAux t

/-- `re.search(r'^#\s+', content, re.MULTILINE)`: some line starts with `#`
followed by at least one whitespace character. -/
def hasTopHeader (content : Str) : Bool := headerAt content || hasHeaderAux content

/-- `DocumentAnalyzer.assess_quality(content, filename)`: start at 100,
deduct 10 for TODO/FIXME, 20 for profanity, 15 for length under 500,
10 for no top-level header, 5 for an all-caps or underscored filename,
and floor at 0. -/
def assess_quality (content : Str) (filename : Str) : Int :=
  let s0 : Int := 100
  let s1 := if hasSub (toL ("TODO")) content || hasSub (toL ("FIXME")) content then s0 - 10 else s0
  let s2 := if hasProfanity content then s1 - 20 else s1
  let s3 := if content.length < 500 then s2 - 15 else s2
  let s4 := if hasTopHeader content then s3 else s3 - 10
  let s5 := if pyIsUpper filename || filename.contains '_' then s4 - 5 else s4
  max 0 s5

/-- File path model: directory segments plus a base name, as handed to
`categorize_vsm_document` (where `str(file_path)` joins the segments
with `/` and `.name` is the base). -/
structure MPath where
  dirs : List Str
  base : Str
deriving DecidableEq

def joinSegs : List Str → Str
  | [] => []
  | [s] => s
  | s :: r => s ++ '/' :: joinSegs r

def pathStrOf (p : MPath) : Str := joinSegs (p.dirs ++ [p.base])

/-- `DocumentAnalyzer.categorize_vsm_document(content, file_path)`:
ordered rule chain, first match wins, fallback `general`. -/
def categorize_vsm_document (content : Str) (p : MPath) : Str :=
  let filename_lower := lowerL p.base
  let content_lower := lowerL content
  let path_str := lowerL (pathStrOf p)
  if hasSub (toL ("/api")) path_str || hasSub (toL ("api_documentation")) filename_lower then
    toL ("api_reference")
  else if hasSub (toL ("/mcp")) path_str || hasSub (toL ("mcp")) filename_lower then
    toL ("mcp_integration")
  else if hasSub (toL ("/testing")) path_str || hasSub (toL ("test")) filename_lower then
    toL ("testing")
  else if hasSub (toL ("/archive")) path_str then
    toL ("archive")
  else if hasSub (toL ("hive")) filename_lower && hasSub (toL ("architecture")) filename_lower then
    toL ("hive_architecture")
  else if hasSub (toL ("architecture")) filename_lower || hasSub (toL ("design")) filename_lower then
    toL ("architecture")
  else if hasSub (toL ("cleanup")) filename_lower || hasSub (toL ("plan")) filename_lower then
    toL ("planning")
  else if hasSub (toL ("test")) filename_lower || hasSub (toL ("result")) filename_lower then
    toL ("testing")
  else if hasSub (toL ("proof")) filename_lower || hasSub (toL ("validation")) filename_lower then
    toL ("archive")
  else if hasSub (toL ("final")) filename_lower || hasSub (toL ("complete")) filename_lower then
    toL ("archive")
  else if hasSub (toL ("endpoint")) content_lower || hasSub (toL ("http")) content_lower then
    toL ("api_reference")
  else if hasSub (toL ("test")) content_lower
      && (hasSub (toL ("pass")) content_lower || hasSub (toL ("fail")) content_lower) then
    toL ("testing")
  else if hasSub (toL ("system 1")) content_lower || hasSub (toL ("system1")) content_lower then
    toL ("vsm_systems")
  else
    toL ("general")

/-- The claimed evaluation order ("path substrings first, then filename
substrings, then content substrings"), built from the claim's words over
the same substring tests, for comparison against the code's actual
order. -/
def categorize_claim_order (content : Str) (p : MPath) : Str :=
  let filename_lower := lowerL p.base
  let content_lower := lowerL content
  let path_str := lowerL (pathStrOf p)
  if hasSub (toL ("/api")) path_str then toL ("api_reference")
  else if hasSub (toL ("/mcp")) path_str then toL ("mcp_integration")
  else if hasSub (toL ("/testing")) path_str then toL ("testing")
  else if hasSub (toL ("/archive")) path_str then toL ("archive")
  else if hasSub (toL ("api_documentation")) filename_lower then toL ("api_reference")
  else if hasSub (toL ("mcp")) filename_lower then toL ("mcp_integration")
  else if hasSub (toL ("test")) filename_lower then toL ("testing")
  else if hasSub (toL ("hive")) filename_lower && hasSub (toL ("architecture")) filename_lower then
    toL ("hive_architecture")
  else if hasSub (toL ("architecture")) filename_lower || hasSub (toL ("design")) filename_lower then
    toL ("architecture")
  else if hasSub (toL ("cleanup")) filename_lower || hasSub (toL ("plan")) filename_lower then
    toL ("planning")
  else if hasSub (toL ("test")) filename_lower || hasSub (toL ("result")) filename_lower then
    toL ("testing")
  else if hasSub (toL ("proof")) filename_lower || hasSub (toL ("validation")) filename_lower then
    toL ("archive")
  else if hasSub (toL ("final")) filename_lower || hasSub (toL ("complete")) filename_lower then
    toL ("archive")
  else if hasSub (toL ("endpoint")) content_lower || hasSub (toL ("http")) content_lower then
    toL ("api_reference")
  else if hasSub (toL ("test")) content_lower
      && (hasSub (toL ("pass")) content_lower || hasSub (toL ("fail")) content_lower) then
    toL ("testing")
  else if hasSub (toL ("system 1")) content_lower || hasSub (toL ("system1")) content_lower then
    toL ("vsm_systems")
  else
    toL ("general")

/-- The rule chain of `categorize_vsm_document` as an explicit ordered
rule list (test, category), in source order. -/
def vsmRules : List ((Str → MPath → Bool) × Str) :=
  [ (fun _ p => hasSub (toL ("/api")) (lowerL (pathStrOf p))
        || hasSub (toL ("api_documentation")) (lowerL p.base), toL ("api_reference")),
    (fun _ p => hasSub (toL ("/mcp")) (lowerL (pathStrOf p))
        || hasSub (toL ("mcp")) (lowerL p.base), toL ("mcp_integration")),
    (fun _ p => hasSub (toL ("/testing")) (lowerL (pathStrOf p))
        || hasSub (toL ("test")) (lowerL p.base), toL ("testing")),
    (fun _ p => hasSub (toL ("/archive")) (lowerL (pathStrOf p)), toL ("archive")),
    (fun _ p => hasSub (toL ("hive")) (lowerL p.base)
        && hasSub (toL ("architecture")) (lowerL p.base), toL ("hive_architecture")),
    (fun _ p => hasSub (toL ("architecture")) (lowerL p.base)
        || hasSub (toL ("design")) (lowerL p.base), toL ("architecture")),
    (fun _ p => hasSub (toL ("cleanup")) (lowerL p.base)
        || hasSub (toL ("plan")) (lowerL p.base), toL ("planning")),
    (fun _ p => hasSub (toL ("test")) (lowerL p.base)
        || hasSub (toL ("result")) (lowerL p.base), toL ("testing")),
    (fun _ p => hasSub (toL ("proof")) (lowerL p.base)
        || hasSub (toL ("validation")) (lowerL p.base), toL ("archive")),
    (fun _ p => hasSub (toL ("final")) (lowerL p.base)
        || hasSub (toL ("complete")) (lowerL p.base), toL ("archive")),
    (fun c _ => hasSub (toL ("endpoint")) (lowerL c) || hasSub (toL ("http")) (lowerL c),
      toL ("api_reference")),
    (fun c _ => hasSub (toL ("test")) (lowerL c)
        && (hasSub (toL ("pass")) (lowerL c) || hasSub (toL ("fail")) (lowerL c)),
      toL ("testing")),
    (fun c _ => hasSub (toL ("system 1")) (lowerL c) || hasSub (toL ("system1")) (lowerL c),
      toL ("vsm_systems")) ]

/-- First-match-wins evaluation of an ordered rule list with fallback
`general`. -/
def firstMatch : List ((Str → MPath → Bool) × Str) → Str → MPath → Str
  | [], _, _ => toL ("general")
  | (t, cat) :: rest, c, p => if t c p then cat else firstMatch rest c p

/-- `name.replace('.md', '')`: remove every (case-sensitive, leftmost,
non-overlapping) occurrence of `.md`. -/
def removeMd : Str → Str
  | [] => []
  | a :: t =>
    match t with
    | b :: c :: r =>
      if a == '.' && (b == 'm' && c == 'd') then removeMd r else a :: removeMd (b :: c :: r)
    | u => a :: removeMd u

def toHyphen (c : Char) : Char := if c == '_' then '-' else c

/-- One pass of `re.sub(r'-{2,}', '-', ...)`: collapse each run of
hyphens to a single hyphen.  The Boolean records whether the previous
emitted character was a hyphen. -/
def collapseAux : Bool → Str → Str
  | _, [] => []
  | prev, a :: t =>
    if a == '-' then
      if prev then collapseAux true t else '-' :: collapseAux true t
    else a :: collapseAux false t

def collapseHyphens (l : Str) : Str := collapseAux false l

/-- The first character is a hyphen. -/
def headH : Str → Bool
  | [] => false
  | a :: _ => a == '-'

/-- The last character is a hyphen. -/
def lastH : Str → Bool
  | [] => false
  | [a] => a == '-'
  | _ :: t => lastH t

/-- No two adjacent characters are both hyphens. -/
def noHH : Str → Bool
  | [] => true
  | [_] => true
  | a :: b :: t => !(a == '-' && b == '-') && noHH (b :: t)

/-- Drop a single leading hyphen, the `^-` alternative of
`re.sub(r'^-|-$', '', ...)`. -/
def dropHeadHyphen (l : Str) : Str := if headH l then l.tail else l

/-- `re.sub(r'^-|-$', '', ...)`: at most one leading and one trailing
hyphen are removed (the regex has no MULTILINE flag). -/
def stripEdgeHyphens (l : Str) : Str :=
  (dropHeadHyphen (dropHeadHyphen l).reverse).reverse

/-- `name[:50].rsplit('-', 1)[0]` given `name[:50]` as input: cut just
before the last hyphen, or keep everything when there is no hyphen. -/
def cutAtLastHyphen (l : Str) : Str :=
  match l.reverse.dropWhile (fun c => !(c == '-')) with
  | [] => l
  | _ :: after => after.reverse

/-- `if len(name) > 50: name = name[:50].rsplit('-', 1)[0]`. -/
def capFifty (l : Str) : Str :=
  if l.length > 50 then cutAtLastHyphen (l.take 50) else l

/-- The stem produced by `generate_clean_filename` before `.md` is
appended (everything after the README special case): remove `.md`
occurrences, underscores to hyphens, lowercase, collapse hyphen runs,
strip edge hyphens, cap at 50 characters. -/
def cleanStem (name : Str) : Str :=
  capFifty (stripEdgeHyphens (collapseHyphens (lowerL ((removeMd name).map toHyphen))))

/-- `DocumentAnalyzer.generate_clean_filename`, acting on the document's
name. -/
def generate_clean_filename (name : Str) : Str :=
  if hasSub (toL ("README")) name then toL ("readme.md")
  else cleanStem name ++ toL (".md")

/-- A scanned document record: the fields of `doc_info` that the
verified properties depend on.  `hash` is derived from `content`
(injective md5 model), so it is not stored separately; `category` is
stored as in the script (computed at scan time). -/
structure Doc where
  path : Str
  name : Str
  content : Str
  category : Str
deriving DecidableEq

/-- Python `str.split()`: split on runs of ASCII whitespace, dropping
empty tokens. -/
def pySplit (s : Str) : List Str :=
  (List.splitOnP isPySpace s).filter (fun w => !w.isEmpty)

/-- `set(text.split())` as a duplicate-free list of tokens. -/
def tokenSet (s : Str) : List Str := (pySplit s).dedup

/-- `DocumentAnalyzer.similarity_ratio(text1, text2)`: Jaccard
similarity of the two token sets, 0 when the union is empty.  The
intersection and union lengths are computed on duplicate-free lists, so
they equal the set cardinalities. -/
def similarityQ (text1 text2 : Str) : ℚ :=
  let set1 := tokenSet text1
  let set2 := tokenSet text2
  let inter := set1.filter (fun w => set2.contains w)
  let uni := set1 ++ set2.filter (fun w => !set1.contains w)
  if uni.length = 0 then 0 else (inter.length : ℚ) / (uni.length : ℚ)

/-- Executable form of `similarity_ratio(text1, text2) > 0.85` by cross
multiplication (`similarity_gt_iff` proves it equivalent to the
rational comparison). -/
def similarityGT (text1 text2 : Str) : Bool :=
  let set1 := tokenSet text1
  let set2 := tokenSet text2
  let inter := set1.filter (fun w => set2.contains w)
  let uni := set1 ++ set2.filter (fun w => !set1.contains w)
  17 * uni.length < 20 * inter.length

/-- Keys of the duplicates dictionary: md5 hex digests (modelled by the
hashed content, md5 taken injective) or the synthetic
`f"similar_{name1}_{name2}"` keys (modelled by the `{name1}_{name2}`
tag; a hex digest never collides with a `similar_` string, which the
separate constructors capture). -/
inductive DupKey
  | digest (content : Str)
  | similar (tag : Str)
deriving DecidableEq

/-- The tag of the synthetic key `f"similar_{doc1['name']}_{doc2['name']}"`. -/
def simTag (d1 d2 : Doc) : Str := d1.name ++ '_' :: d2.name

/-- `duplicates[key].append/extend`: append paths to the entry of `key`
in an insertion-ordered association list, creating the entry at the end
if absent (defaultdict(list) semantics). -/
def addPaths : List (DupKey × List Str) → DupKey → List Str → List (DupKey × List Str)
  | [], k, ps => [(k, ps)]
  | (k', v) :: rest, k, ps =>
    if k' = k then (k', v ++ ps) :: rest else (k', v) :: addPaths rest k ps

/-- The body of the double loop of `find_duplicates` for one ordered
pair `(doc1, doc2)`: equal hashes append both paths under the digest
key, otherwise similarity above 0.85 appends both paths under the
synthetic key. -/
def pairStep (m : List (DupKey × List Str)) (pr : Doc × Doc) : List (DupKey × List Str) :=
  if pr.1.content = pr.2.content then
    addPaths m (DupKey.digest pr.1.content) [pr.1.path, pr.2.path]
  else if similarityGT pr.1.content pr.2.content then
    addPaths m (DupKey.similar (simTag pr.1 pr.2)) [pr.1.path, pr.2.path]
  else m

/-- All ordered pairs `(documents[i], documents[j])` with `i < j`, in
loop order. -/
def allPairs : List Doc → List (Doc × Doc)
  | [] => []
  | d :: rest => rest.map (fun d2 => (d, d2)) ++ allPairs rest

def rawDupMap (docs : List Doc) : List (DupKey × List Str) :=
  (allPairs docs).foldl pairStep []

/-- `DocumentAnalyzer.find_duplicates()` over the scanned documents,
including the final per-key `list(set(...))` deduplication. -/
def find_duplicates (docs : List Doc) : List (DupKey × List Str) :=
  (rawDupMap docs).map (fun kv => (kv.1, kv.2.dedup))

/-- Paths stored under `k` (empty when the key is absent). -/
def getPaths : List (DupKey × List Str) → DupKey → List Str
  | [], _ => []
  | (k', v) :: rest, k => if k' = k then v else getPaths rest k

/-- Python `dict` insertion (insertion order, later keys overwrite in
place), used for the quality-score, content and rename maps. -/
def dictIns {α : Type} : List (Str × α) → Str → α → List (Str × α)
  | [], k, v => [(k, v)]
  | (k', v') :: rest, k, v =>
    if k' = k then (k', v) :: rest else (k', v') :: dictIns rest k v

def quality_scores (docs : List Doc) : List (Str × Int) :=
  docs.foldl (fun m d => dictIns m d.name (assess_quality d.content d.name)) []

/-- Python integer/length division, raising `ZeroDivisionError` on a
zero divisor. -/
def pyDiv (a : Int) (b : Nat) : Except Str ℚ :=
  if b = 0 then Except.error (toL ("ZeroDivisionError")) else Except.ok ((a : ℚ) / (b : ℚ))

/-- The `avg_quality` computation of `analyze_patterns`:
`sum(quality_scores.values()) / len(quality_scores) if quality_scores else 0`. -/
def average_quality (docs : List Doc) : Except Str ℚ :=
  let qs := quality_scores docs
  if !qs.isEmpty then pyDiv ((qs.map (fun kv => kv.2)).sum) qs.length else Except.ok 0

/-- File system model: insertion-ordered map from path to content. -/
def FSys := List (Str × Str)

def fsGet : FSys → Str → Option Str
  | [], _ => none
  | (p', c) :: rest, p => if p' = p then some c else fsGet rest p

def fsSet : FSys → Str → Str → FSys
  | [], p, c => [(p, c)]
  | (p', c') :: rest, p, c =>
    if p' = p then (p', c) :: rest else (p', c') :: fsSet rest p c

/-- `shutil.copy2(src, dst)`: read the source (raising if absent) and
write its content at the destination. -/
def copy2 (fs : FSys) (src dst : Str) : Except Str FSys :=
  match fsGet fs src with
  | none => Except.error (toL ("FileNotFoundError"))
  | some c => Except.ok (fsSet fs dst c)

/-- `category_mapping.get(category, '08_archive/legacy')`. -/
def categoryMappingGet (category : Str) : Str :=
  if category = toL ("api_reference") then toL ("03_api_reference/endpoints")
  else if category = toL ("testing") then toL ("04_development/testing")
  else if category = toL ("architecture") then toL ("02_architecture/vsm_systems")
  else if category = toL ("hive_architecture") then toL ("02_architecture/hive_mind")
  else if category = toL ("mcp_integration") then toL ("02_architecture/mcp_integration")
  else if category = toL ("planning") then toL ("07_project_docs/planning")
  else if category = toL ("archive") then toL ("08_archive/legacy")
  else if category = toL ("vsm_systems") then toL ("02_architecture/vsm_systems")
  else if category = toL ("general") then toL ("01_overview")
  else toL ("08_archive/legacy")

def targetPathOf (outDir : Str) (d : Doc) : Str :=
  outDir ++ '/' :: (categoryMappingGet d.category ++ '/' :: generate_clean_filename d.name)

/-- One iteration of the copy loop of `reorganize_documents`: copy the
document to its target and record the move in `content_map`. -/
def reorgStep (outDir : Str) (st : FSys × List (Str × Str)) (d : Doc) :
    Except Str (FSys × List (Str × Str)) := do
  let fs' ← copy2 st.1 d.path (targetPathOf outDir d)
  Except.ok (fs', dictIns st.2 d.path (targetPathOf outDir d))

/-- Abstract stand-in for `json.dump` output: only the written path
matters for the verified frame property. -/
def renderPairs (m : List (Str × Str)) : Str :=
  (m.map (fun kv => kv.1 ++ kv.2)).foldr (fun a b => a ++ b) []

/-- The `rename_map` built by the loop (`doc['name'] != clean_name`). -/
def renameMap (docs : List Doc) : List (Str × Str) :=
  docs.foldl
    (fun m d =>
      if d.name ≠ generate_clean_filename d.name then
        dictIns m d.name (generate_clean_filename d.name)
      else m)
    []

/-- `DocumentAnalyzer.reorganize_documents()`: copy every document into
the output tree, then write `content_map.json` and `rename_map.json`
into the analysis directory.  Returns the final file system and the
content map. -/
def reorganize_documents (outDir anaDir : Str) (docs : List Doc) (fs : FSys) :
    Except Str (FSys × List (Str × Str)) := do
  let st ← docs.foldlM (reorgStep outDir) (fs, [])
  let fs1 := fsSet st.1 (anaDir ++ toL ("/content_map.json")) (renderPairs st.2)
  let fs2 := fsSet fs1 (anaDir ++ toL ("/rename_map.json")) (renderPairs (renameMap docs))
  Except.ok (fs2, st.2)

/-- A markdown file as found by `input_dir.rglob("*.md")`: directory
segments relative to the input directory (empty for a file directly in
it), base name and content. -/
structure FileEnt where
  relDirs : List Str
  base : Str
  content : Str
deriving DecidableEq

/-- The document record built for one scanned file (`doc_info`,
restricted to the modelled fields).  `inSegs` are the path segments of
the input directory. -/
def mkDoc (inSegs : List Str) (f : FileEnt) : Doc :=
  { path := joinSegs (inSegs ++ f.relDirs ++ [f.base])
    name := f.base
    content := f.content
    category := categorize_vsm_document f.content ⟨inSegs ++ f.relDirs, f.base⟩ }

/-- `DocumentAnalyzer.scan_documents()`: walk the `.md` files and build
a record for each, skipping `README.md` files that are not directly in
the input directory (`file_path.parent != self.input_dir`). -/
def scan_documents (inSegs : List Str) (files : List FileEnt) : List Doc :=
  files.filterMap (fun f =>
    if !endsWithL (toL (".md")) f.base then none
    else if f.relDirs ≠ [] ∧ f.base = toL ("README.md") then none
    else some (mkDoc inSegs f))

/-- The quality function as the claim describes it: 100 minus fixed
deductions for profanity, short length, missing top-level header and
filename style only, floored at 0 (no TODO/FIXME deduction). -/
def assess_quality_claimed (content : Str) (filename : Str) : Int :=
  max 0 (100 -
    ((if hasProfanity content then (20 : Int) else 0)
      + (if content.length < 500 then 15 else 0)
      + (if hasTopHeader content then 0 else 10)
      + (if pyIsUpper filename || filename.contains '_' then 5 else 0)))

/-- The quality function as the amended claim describes it: 100 minus
the sum of the five fixed deductions (including 10 for TODO/FIXME),
floored at 0. -/
def assess_quality_spec (content : Str) (filename : Str) : Int :=
  max 0 (100 -
    ((if hasSub (toL ("TODO")) content || hasSub (toL ("FIXME")) content then (10 : Int) else 0)
      + (if hasProfanity content then 20 else 0)
      + (if content.length < 500 then 15 else 0)
      + (if hasTopHeader content then 0 else 10)
      + (if pyIsUpper filename || filename.contains '_' then 5 else 0)))

/-- A 513-character document with a top-level header and a TODO marker
and none of the four deduction conditions the claim lists. -/
def todoContent : Str := toL ("# Title TODO ") ++ List.replicate 500 'a'

/-- Contents for the short/long quality comparison: identical except for
the 500 filler characters. -/
def shortContent : Str := toL ("# Doc ok")

def longContent : Str := toL ("# Doc ok") ++ List.replicate 500 'a'

/-- The path `docs/archive/notes-mcp.md`: `/archive` occurs in the path
string while `mcp` occurs in the filename. -/
def cePathC2 : MPath := ⟨[toL ("docs"), toL ("archive")], toL ("notes-mcp.md")⟩

/-- Four documents sharing the name `x`: `ce4A`/`ce4D` and
`ce4B`/`ce4C` have equal token sets but different raw contents, and the
two groups share no token. -/
def ce4A : Doc := ⟨toL ("docs/a.md"), toL ("x"), toL ("p q"), toL ("general")⟩

def ce4B : Doc := ⟨toL ("docs/b.md"), toL ("x"), toL ("r s"), toL ("general")⟩

def ce4C : Doc := ⟨toL ("docs/c.md"), toL ("x"), toL ("r  s"), toL ("general")⟩

def ce4D : Doc := ⟨toL ("docs/d.md"), toL ("x"), toL ("p  q"), toL ("general")⟩

/-- Two documents with distinct underscore-free names whose token sets
coincide while the raw contents differ. -/
def w4A : Doc := ⟨toL ("docs/a.md"), toL ("a.md"), toL ("p q"), toL ("general")⟩

def w4B : Doc := ⟨toL ("docs/b.md"), toL ("b.md"), toL ("p  q"), toL ("general")⟩

/-- Three documents: the first two with identical content, the third
unrelated. -/
def w5A : Doc := ⟨toL ("docs/a.md"), toL ("a.md"), toL ("hello world hello"), toL ("general")⟩

def w5B : Doc := ⟨toL ("docs/b.md"), toL ("b.md"), toL ("hello world hello"), toL ("general")⟩

def w5C : Doc := ⟨toL ("docs/c.md"), toL ("c.md"), toL ("totally different words"), toL ("general")⟩

def wDoc9 : Doc := ⟨toL ("./docs/a.md"), toL ("a.md"), toL ("hi"), toL ("general")⟩

def wFs9 : FSys := [(toL ("./docs/a.md"), toL ("hi"))]

/-- The configured directory constants of the script. -/
def inputDirL : Str := toL ("./docs")

def outputDirL : Str := toL ("./docs_organized")

def analysisDirL : Str := toL ("./docs_analysis")

def wRes9 : FSys × List (Str × Str) :=
  (reorganize_documents outputDirL analysisDirL [wDoc9] wFs9).toOption.getD ([], [])

def wfSub10 : FileEnt := ⟨[toL ("sub")], toL ("README.md"), toL ("x")⟩

def wfTop10 : FileEnt := ⟨[], toL ("README.md"), toL ("y")⟩

/-- What one ordered pair contributes to the duplicates dictionary at
key `k`. -/
def contrib (pr : Doc × Doc) (k : DupKey) : Prop :=
  (pr.1.content = pr.2.content ∧ k = DupKey.digest pr.1.content)
    ∨ (pr.1.content ≠ pr.2.content ∧ similarityGT pr.1.content pr.2.content = true
        ∧ k = DupKey.similar (simTag pr.1 pr.2))

/-- C1: for every document, the quality score computed by
`assess_quality` lies in [0, 100]: it starts at 100, is only decreased
by deductions, and is floored at 0. -/
theorem c1_quality_score_in_range (content filename : Str) :
    0 ≤ assess_quality content filename ∧ assess_quality content filename ≤ 100 := by
  unfold assess_quality
  split_ifs <;> decide

set_option maxRecDepth 40000 in
/-- C6 counterexample: a 513-character document with a top-level header,
no profanity, a well-formed filename, but a TODO marker scores 90, while
the claim's four-deduction description yields 100 — so the listed four
conditions are not the only ones that change the score. -/
theorem c6_counterexample :
    assess_quality todoContent (toL ("notes.md")) = 90
      ∧ assess_quality_claimed todoContent (toL ("notes.md")) = 100 := by
  constructor <;> rfl

/-- C6 amended: the quality score is exactly 100 minus the applicable
fixed deductions, floored at 0, where the deduction conditions are:
TODO/FIXME markers (10), profanity (20), length under 500 (15), no
top-level header (10), and uppercase or underscored filename (5); no
other property of content or filename changes the score. -/
theorem c6_quality_deductions_amended (content filename : Str) :
    assess_quality content filename = assess_quality_spec content filename := by
  unfold assess_quality assess_quality_spec
  split_ifs <;> decide

/-- C7: between two documents identical in every deduction-relevant
respect except that one is shorter than 500 characters and the other is
not, the shorter one scores at least 15 less. -/
theorem c7_short_penalty (c1 c2 filename : Str)
    (hshort : c1.length < 500) (hlong : ¬ c2.length < 500)
    (htodo : (hasSub (toL ("TODO")) c1 || hasSub (toL ("FIXME")) c1)
      = (hasSub (toL ("TODO")) c2 || hasSub (toL ("FIXME")) c2))
    (hprof : hasProfanity c1 = hasProfanity c2)
    (hhead : hasTopHeader c1 = hasTopHeader c2) :
    assess_quality c1 filename + 15 ≤ assess_quality c2 filename := by
  unfold assess_quality
  simp only [htodo, hprof, hhead, if_pos hshort, if_neg hlong]
  split_ifs <;> decide

set_option maxRecDepth 40000 in
/-- C7 witness at concrete short/long contents. -/
theorem c7_witness :
    assess_quality shortContent (toL ("doc.md")) + 15
      ≤ assess_quality longContent (toL ("doc.md")) :=
  c7_short_penalty shortContent longContent (toL ("doc.md"))
    (by decide) (by decide) (by decide) (by decide) (by decide)

/-- C2 counterexample: on `docs/archive/notes-mcp.md` with empty
content, the code returns `mcp_integration` (the filename test `mcp`
sits inside the first rule block) although the `/archive` path substring
matches, so evaluation is not "all path substrings first, then filename
substrings". -/
theorem c2_counterexample :
    categorize_vsm_document (toL ("")) cePathC2 = toL ("mcp_integration")
      ∧ categorize_claim_order (toL ("")) cePathC2 = toL ("archive") := by
  constructor <;> rfl

/-- C2 amended: category assignment is a deterministic (pure) function
of content and path, evaluated as an ordered first-match-wins rule
chain whose first three rules test path-or-filename disjunctions
(`/api` or `api_documentation`, `/mcp` or `mcp`, `/testing` or `test`),
then the `/archive` path test, then filename-substring rules, then
content-substring rules, with fallback `general` — the explicit rule
list `vsmRules` in that order. -/
theorem c2_rule_chain_amended (content : Str) (p : MPath) :
    categorize_vsm_document content p = firstMatch vsmRules content p := rfl

/-- C8 counterexample: on an empty corpus the average quality is the
guarded default 0, not a propagated ZeroDivisionError. -/
theorem c8_counterexample : average_quality [] = Except.ok 0 := rfl

/-- C8 amended: computing the corpus-wide average quality never raises:
the emptiness guard returns 0 for an empty corpus, and a nonempty
corpus divides by its nonzero size. -/
theorem c8_average_quality_total (docs : List Doc) :
    ∃ q, average_quality docs = Except.ok q := by
  rcases hq : quality_scores docs with _ | ⟨kv, rest⟩
  · exact ⟨0, by unfold average_quality; rw [hq]; rfl⟩
  · have hstep : average_quality docs
        = pyDiv ((kv :: rest).map (fun x => x.2)).sum (kv :: rest).length := by
      unfold average_quality
      simp only [hq]
      rfl
    rw [hstep]
    unfold pyDiv
    rw [if_neg (show ¬ (kv :: rest).length = 0 from by simp)]
    exact ⟨_, rfl⟩

/-- C10: a file named `README.md` in a proper subdirectory contributes
no document record (removing it does not change the scan output at
all), while a `README.md` directly in the input directory is scanned
normally. -/
theorem c10_readme_skip (inSegs : List Str) (files1 files2 : List FileEnt) (f : FileEnt)
    (hname : f.base = toL ("README.md")) :
    (f.relDirs ≠ [] →
      scan_documents inSegs (files1 ++ f :: files2) = scan_documents inSegs (files1 ++ files2))
      ∧ (f.relDirs = [] →
        scan_documents inSegs (files1 ++ f :: files2)
          = scan_documents inSegs files1 ++ mkDoc inSegs f :: scan_documents inSegs files2) := by
  constructor
  · intro hrel
    unfold scan_documents
    rw [List.filterMap_append, List.filterMap_append]
    rw [List.filterMap_cons_none]
    rw [hname]
    rw [if_neg (by decide)]
    rw [if_pos ⟨hrel, rfl⟩]
  · intro hrel
    unfold scan_documents
    rw [List.filterMap_append]
    rw [List.filterMap_cons_some]
    rw [hname]
    rw [if_neg (by decide)]
    rw [if_neg (fun h => h.1 hrel)]

/-- C10 witness: a subdirectory `README.md` and the corresponding
top-level behaviour at a concrete input directory. -/
theorem c10_witness :
    (wfSub10.relDirs ≠ [] →
      scan_documents [toL ("docs")] ([] ++ wfSub10 :: [])
        = scan_documents [toL ("docs")] ([] ++ []))
      ∧ (wfSub10.relDirs = [] →
        scan_documents [toL ("docs")] ([] ++ wfSub10 :: [])
          = scan_documents [toL ("docs")] [] ++ mkDoc [toL ("docs")] wfSub10 :: scan_documents [toL ("docs")] []) :=
  c10_readme_skip [toL ("docs")] [] [] wfSub10 (by decide)

theorem fsGet_fsSet_ne (fs : FSys) (p q : Str) (c : Str) (h : q ≠ p) :
    fsGet (fsSet fs q c) p = fsGet fs p := by
  induction fs with
  | nil => simp [fsSet, fsGet, h]
  | cons kv rest ih =>
    unfold fsSet
    rcases kv with ⟨p', c'⟩
    by_cases hq : p' = q
    · rw [if_pos hq]
      unfold fsGet
      rw [if_neg (by rw [hq]; exact h), if_neg (by rw [← hq] at h; exact fun hc => h hc)]
    · rw [if_neg hq]
      unfold fsGet
      by_cases hp : p' = p
      · rw [if_pos hp, if_pos hp]
      · rw [if_neg hp, if_neg hp, ih]

theorem startsWith_docs_out (X : Str) :
    startsWithL (inputDirL ++ ['/']) (outputDirL ++ '/' :: X) = false := rfl

theorem startsWith_docs_ana1 :
    startsWithL (inputDirL ++ ['/']) (analysisDirL ++ toL ("/content_map.json")) = false := rfl

theorem startsWith_docs_ana2 :
    startsWithL (inputDirL ++ ['/']) (analysisDirL ++ toL ("/rename_map.json")) = false := rfl

theorem reorg_fold_preserves (p : Str) (hp : startsWithL (inputDirL ++ ['/']) p = true) :
    ∀ (docs : List Doc) (st st' : FSys × List (Str × Str)),
      docs.foldlM (reorgStep outputDirL) st = Except.ok st' →
      fsGet st'.1 p = fsGet st.1 p := by
  intro docs
  induction docs with
  | nil =>
    intro st st' h
    have hst : st = st' := Except.ok.inj h
    rw [hst]
  | cons d t ih =>
    intro st st' h
    rw [List.foldlM_cons] at h
    rcases hc : copy2 st.1 d.path (targetPathOf outputDirL d) with e | fs1
    · rw [show reorgStep outputDirL st d = Except.error e by
        unfold reorgStep; rw [hc]; rfl] at h
      exact absurd h (by simp [Bind.bind, Except.bind])
    · rw [show reorgStep outputDirL st d
          = Except.ok (fs1, dictIns st.2 d.path (targetPathOf outputDirL d)) by
        unfold reorgStep; rw [hc]; rfl] at h
      have hrec := ih (fs1, dictIns st.2 d.path (targetPathOf outputDirL d)) st'
        (by rw [← h]; simp [Bind.bind, Except.bind])
      rw [hrec]
      unfold copy2 at hc
      rcases hg : fsGet st.1 d.path with _ | c
      · rw [hg] at hc; exact absurd hc (by simp)
      · rw [hg] at hc
        have hfs1 : fs1 = fsSet st.1 (targetPathOf outputDirL d) c := by
          injection hc with h'; exact h'.symm
        rw [hfs1]
        exact fsGet_fsSet_ne st.1 p (targetPathOf outputDirL d) c
          (fun he => by
            rw [← he] at hp
            rw [show targetPathOf outputDirL d
                = outputDirL ++ '/' :: (categoryMappingGet d.category
                    ++ '/' :: generate_clean_filename d.name) from rfl] at hp
            rw [startsWith_docs_out] at hp
            exact Bool.noConfusion hp)

/-- C9: reorganization is non-destructive: with the script's configured
directories, any path under the input directory `./docs/` is unchanged
(same existence and content) by `reorganize_documents`, which writes
only under `./docs_organized/` and `./docs_analysis/`. -/
theorem c9_reorganize_nondestructive (docs : List Doc) (fs : FSys) (p : Str)
    (fs' : FSys) (cmap : List (Str × Str))
    (hrun : reorganize_documents outputDirL analysisDirL docs fs = Except.ok (fs', cmap))
    (hp : startsWithL (inputDirL ++ ['/']) p = true) :
    fsGet fs' p = fsGet fs p := by
  unfold reorganize_documents at hrun
  rcases hfold : docs.foldlM (reorgStep outputDirL) ((fs, [])) with e | st
  · rw [hfold] at hrun
    exact absurd hrun (by simp [Bind.bind, Except.bind])
  · rw [hfold] at hrun
    simp only [Bind.bind, Except.bind] at hrun
    have h2 := Except.ok.inj hrun
    have hfs' : fsSet (fsSet st.1 (analysisDirL ++ toL ("/content_map.json")) (renderPairs st.2))
        (analysisDirL ++ toL ("/rename_map.json")) (renderPairs (renameMap docs)) = fs' :=
      congrArg Prod.fst h2
    rw [← hfs']
    rw [fsGet_fsSet_ne _ _ _ _ (fun he => by
      rw [← he, startsWith_docs_ana2] at hp; exact Bool.noConfusion hp)]
    rw [fsGet_fsSet_ne _ _ _ _ (fun he => by
      rw [← he, startsWith_docs_ana1] at hp; exact Bool.noConfusion hp)]
    exact reorg_fold_preserves p hp docs (fs, []) st hfold

/-- C9 witness: one concrete document copied from `./docs/`, querying
the original path afterwards. -/
theorem c9_witness : fsGet wRes9.1 (toL ("./docs/a.md")) = fsGet wFs9 (toL ("./docs/a.md")) :=
  c9_reorganize_nondestructive [wDoc9] wFs9 (toL ("./docs/a.md")) wRes9.1 wRes9.2
    (by rfl) (by decide)

theorem ratio_gt_iff (i u : ℕ) (hi : i ≤ u) :
    (decide (17 * u < 20 * i) = true) ↔ ((if u = 0 then (0:ℚ) else (i:ℚ)/(u:ℚ)) > 17/20) := by
  by_cases hu : u = 0
  · subst hu
    have hi0 : i = 0 := Nat.le_zero.mp hi
    subst hi0
    simp
    norm_num
  · rw [if_neg hu, gt_iff_lt, div_lt_div_iff₀ (by norm_num) (by exact_mod_cast Nat.pos_of_ne_zero hu)]
    rw [decide_eq_true_eq, mul_comm (i:ℚ) 20]
    constructor
    · intro h; exact_mod_cast h
    · intro h; exact_mod_cast h

theorem inter_le_union_len (t1 t2 : Str) :
    ((tokenSet t1).filter (fun w => (tokenSet t2).contains w)).length
      ≤ (tokenSet t1 ++ (tokenSet t2).filter (fun w => !(tokenSet t1).contains w)).length := by
  rw [List.length_append]
  exact le_trans (List.length_filter_le _ _) (Nat.le_add_right _ _)

/-- The executable cross-multiplied test agrees with the rational
Jaccard comparison of the source (`similarity_ratio(...) > 0.85`). -/
theorem similarity_gt_iff (t1 t2 : Str) :
    similarityGT t1 t2 = true ↔ similarityQ t1 t2 > 17/20 := by
  unfold similarityGT similarityQ
  exact ratio_gt_iff _ _ (inter_le_union_len t1 t2)

theorem similarity_le_of_gt_false (t1 t2 : Str) (h : similarityGT t1 t2 = false) :
    similarityQ t1 t2 ≤ 17/20 :=
  not_lt.mp (fun hq => by rw [(similarity_gt_iff t1 t2).mpr hq] at h; exact Bool.noConfusion h)

theorem getPaths_addPaths (m : List (DupKey × List Str)) (k k' : DupKey) (ps : List Str) :
    getPaths (addPaths m k' ps) k
      = if k' = k then getPaths m k ++ ps else getPaths m k := by
  induction m with
  | nil =>
    by_cases h : k' = k <;> simp [addPaths, getPaths, h]
  | cons kv rest ih =>
    rcases kv with ⟨k1, v⟩
    unfold addPaths
    by_cases h1 : k1 = k'
    · subst h1
      rw [if_pos rfl]
      by_cases h2 : k1 = k
      · simp [getPaths, h2]
      · simp [getPaths, h2]
    · rw [if_neg h1]
      by_cases h2 : k1 = k
      · subst h2
        have h3 : ¬ k' = k1 := fun he => h1 he.symm
        simp [getPaths, h3]
      · simp [getPaths, h2, ih]

theorem mem_getPaths_pairStep (m : List (DupKey × List Str)) (pr : Doc × Doc)
    (k : DupKey) (p : Str) :
    p ∈ getPaths (pairStep m pr) k
      ↔ p ∈ getPaths m k ∨ (contrib pr k ∧ (p = pr.1.path ∨ p = pr.2.path)) := by
  unfold pairStep contrib
  by_cases h1 : pr.1.content = pr.2.content
  · rw [if_pos h1, getPaths_addPaths]
    by_cases h2 : DupKey.digest pr.1.content = k
    · rw [if_pos h2]
      simp only [List.mem_append, List.mem_cons, List.mem_singleton, List.not_mem_nil, or_false]
      constructor
      · rintro (h | h | h)
        · exact Or.inl h
        · exact Or.inr ⟨Or.inl ⟨h1, h2.symm⟩, Or.inl h⟩
        · exact Or.inr ⟨Or.inl ⟨h1, h2.symm⟩, Or.inr h⟩
      · rintro (h | ⟨_, (h | h)⟩)
        · exact Or.inl h
        · exact Or.inr (Or.inl h)
        · exact Or.inr (Or.inr h)
    · rw [if_neg h2]
      constructor
      · intro h; exact Or.inl h
      · rintro (h | ⟨hcon, _⟩)
        · exact h
        · rcases hcon with ⟨_, hk⟩ | ⟨hne, _⟩
          · exact absurd hk.symm h2
          · exact absurd h1 hne
  · rw [if_neg h1]
    by_cases hsim : similarityGT pr.1.content pr.2.content = true
    · rw [if_pos hsim, getPaths_addPaths]
      by_cases h2 : DupKey.similar (simTag pr.1 pr.2) = k
      · rw [if_pos h2]
        simp only [List.mem_append, List.mem_cons, List.mem_singleton, List.not_mem_nil, or_false]
        constructor
        · rintro (h | h | h)
          · exact Or.inl h
          · exact Or.inr ⟨Or.inr ⟨h1, hsim, h2.symm⟩, Or.inl h⟩
          · exact Or.inr ⟨Or.inr ⟨h1, hsim, h2.symm⟩, Or.inr h⟩
        · rintro (h | ⟨_, (h | h)⟩)
          · exact Or.inl h
          · exact Or.inr (Or.inl h)
          · exact Or.inr (Or.inr h)
      · rw [if_neg h2]
        constructor
        · intro h; exact Or.inl h
        · rintro (h | ⟨hcon, _⟩)
          · exact h
          · rcases hcon with ⟨heq, _⟩ | ⟨_, _, hk⟩
            · exact absurd heq h1
            · exact absurd hk.symm h2
    · have hsim' : similarityGT pr.1.content pr.2.content = false :=
        Bool.eq_false_iff.mpr hsim
      rw [if_neg (by rw [hsim']; exact Bool.noConfusion)]
      constructor
      · intro h; exact Or.inl h
      · rintro (h | ⟨hcon, _⟩)
        · exact h
        · rcases hcon with ⟨heq, _⟩ | ⟨_, hgt, _⟩
          · exact absurd heq h1
          · exact absurd hgt hsim

theorem mem_getPaths_foldl (ps : List (Doc × Doc)) :
    ∀ (m : List (DupKey × List Str)) (k : DupKey) (p : Str),
      p ∈ getPaths (ps.foldl pairStep m) k
        ↔ p ∈ getPaths m k ∨ ∃ pr ∈ ps, contrib pr k ∧ (p = pr.1.path ∨ p = pr.2.path) := by
  induction ps with
  | nil => intro m k p; simp
  | cons pr0 t ih =>
    intro m k p
    rw [List.foldl_cons, ih, mem_getPaths_pairStep]
    constructor
    · rintro ((h | h) | ⟨pr, hpr, hc⟩)
      · exact Or.inl h
      · exact Or.inr ⟨pr0, List.mem_cons_self _ _, h⟩
      · exact Or.inr ⟨pr, List.mem_cons_of_mem _ hpr, hc⟩
    · rintro (h | ⟨pr, hpr, hc⟩)
      · exact Or.inl (Or.inl h)
      · rcases List.mem_cons.mp hpr with rfl | hpr'
        · exact Or.inl (Or.inr hc)
        · exact Or.inr ⟨pr, hpr', hc⟩

theorem mem_getPaths_raw (docs : List Doc) (k : DupKey) (p : Str) :
    p ∈ getPaths (rawDupMap docs) k
      ↔ ∃ pr ∈ allPairs docs, contrib pr k ∧ (p = pr.1.path ∨ p = pr.2.path) := by
  unfold rawDupMap
  rw [mem_getPaths_foldl]
  simp [getPaths]

theorem getPaths_dedup_map (m : List (DupKey × List Str)) (k : DupKey) :
    getPaths (m.map (fun kv => (kv.1, kv.2.dedup))) k = (getPaths m k).dedup := by
  induction m with
  | nil => simp [getPaths]
  | cons kv rest ih =>
    rcases kv with ⟨k1, v⟩
    by_cases h : k1 = k
    · simp [getPaths, h]
    · simp [getPaths, h, ih]

theorem mem_getPaths_find (docs : List Doc) (k : DupKey) (p : Str) :
    p ∈ getPaths (find_duplicates docs) k ↔ p ∈ getPaths (rawDupMap docs) k := by
  unfold find_duplicates
  rw [getPaths_dedup_map]
  exact List.mem_dedup

theorem allPairs_mem : ∀ (docs : List Doc) (pr : Doc × Doc),
    pr ∈ allPairs docs → pr.1 ∈ docs ∧ pr.2 ∈ docs := by
  intro docs
  induction docs with
  | nil => intro pr h; simp [allPairs] at h
  | cons d t ih =>
    intro pr h
    unfold allPairs at h
    rw [List.mem_append] at h
    rcases h with h | h
    · rcases List.mem_map.mp h with ⟨d2, hd2, rfl⟩
      exact ⟨List.mem_cons_self _ _, List.mem_cons_of_mem _ hd2⟩
    · rcases ih pr h with ⟨h1, h2⟩
      exact ⟨List.mem_cons_of_mem _ h1, List.mem_cons_of_mem _ h2⟩

theorem name_det (docs : List Doc) (hnames : docs.Pairwise (fun x y => x.name ≠ y.name))
    (a b : Doc) (ha : a ∈ docs) (hb : b ∈ docs) (h : a.name = b.name) : a = b := by
  by_contra hne
  exact absurd h (hnames.forall (fun x y hxy => Ne.symm hxy) ha hb hne)

theorem tag_inj : ∀ (a : Str) (c b d : Str), '_' ∉ a → '_' ∉ c →
    a ++ '_' :: b = c ++ '_' :: d → a = c ∧ b = d := by
  intro a
  induction a with
  | nil =>
    intro c b d _ hc h
    cases c with
    | nil =>
      rw [List.nil_append, List.nil_append] at h
      injection h with _ h2
      exact ⟨rfl, h2⟩
    | cons x c' =>
      rw [List.nil_append, List.cons_append] at h
      injection h with h1 _
      exact absurd (by rw [← h1]; exact List.mem_cons_self _ _) hc
  | cons x a' ih =>
    intro c b d ha hc h
    cases c with
    | nil =>
      rw [List.cons_append, List.nil_append] at h
      injection h with h1 _
      exact absurd (by rw [h1]; exact List.mem_cons_self _ _) ha
    | cons y c' =>
      rw [List.cons_append, List.cons_append] at h
      injection h with h1 h2
      rcases ih c' b d (fun hm => ha (List.mem_cons_of_mem _ hm))
        (fun hm => hc (List.mem_cons_of_mem _ hm)) h2 with ⟨hac, hbd⟩
      exact ⟨by rw [h1, hac], hbd⟩

theorem similarity_gt_false_of_le (t1 t2 : Str) (h : similarityQ t1 t2 ≤ 17/20) :
    similarityGT t1 t2 = false := by
  cases hgt : similarityGT t1 t2 with
  | false => rfl
  | true => exact absurd ((similarity_gt_iff t1 t2).mp hgt) (not_lt.mpr h)

theorem pairStep_skip (m : List (DupKey × List Str)) (x y : Doc)
    (hne : x.content ≠ y.content) (hgt : similarityGT x.content y.content = false) :
    pairStep m (x, y) = m := by
  unfold pairStep
  rw [if_neg hne, show similarityGT (x, y).1.content (x, y).2.content = false from hgt]
  rfl

theorem pairStep_digest (m : List (DupKey × List Str)) (x y : Doc)
    (heq : x.content = y.content) :
    pairStep m (x, y) = addPaths m (DupKey.digest x.content) [x.path, y.path] := by
  unfold pairStep
  rw [if_pos heq]

/-- C4 counterexample: in the four-document corpus `ce4A..ce4D` (all
named `x`), the pair `(ce4A, ce4B)` has different hashes and Jaccard
similarity 0, yet both of its paths appear under the synthetic key
`similar_x_x` (contributed by the colliding pairs `(ce4A, ce4D)` and
`(ce4B, ce4C)`), so grouping under a synthetic name-based key is not
equivalent to similarity above 0.85. -/
theorem c4_counterexample :
    (ce4A, ce4B) ∈ allPairs [ce4A, ce4B, ce4C, ce4D]
      ∧ ce4A.content ≠ ce4B.content
      ∧ ce4A.path ∈ getPaths (find_duplicates [ce4A, ce4B, ce4C, ce4D])
          (DupKey.similar (simTag ce4A ce4B))
      ∧ ce4B.path ∈ getPaths (find_duplicates [ce4A, ce4B, ce4C, ce4D])
          (DupKey.similar (simTag ce4A ce4B))
      ∧ ¬ similarityQ ce4A.content ce4B.content > 17/20 :=
  ⟨by decide, by decide, by decide, by decide,
    not_lt.mpr (similarity_le_of_gt_false _ _ (by decide))⟩

/-- C4 amended: provided the scanned documents have pairwise distinct,
underscore-free names (so synthetic keys of distinct pairs cannot
collide), a pair with different hashes is grouped under its synthetic
name-based key iff the Jaccard similarity of its token sets strictly
exceeds 0.85; with colliding keys (repeated names or underscore
ambiguity) paths of dissimilar pairs can share a group. -/
theorem c4_similarity_grouping_amended (docs : List Doc) (d1 d2 : Doc)
    (hnames : docs.Pairwise (fun x y => x.name ≠ y.name))
    (hund : ∀ d ∈ docs, '_' ∉ d.name)
    (hpair : (d1, d2) ∈ allPairs docs)
    (hhash : d1.content ≠ d2.content) :
    (d1.path ∈ getPaths (find_duplicates docs) (DupKey.similar (simTag d1 d2))
      ∧ d2.path ∈ getPaths (find_duplicates docs) (DupKey.similar (simTag d1 d2)))
      ↔ similarityQ d1.content d2.content > 17/20 := by
  rw [mem_getPaths_find, mem_getPaths_find, mem_getPaths_raw, mem_getPaths_raw]
  rw [← similarity_gt_iff]
  constructor
  · rintro ⟨⟨pr, hpr, hcon, _⟩, _⟩
    rcases hcon with ⟨_, hk⟩ | ⟨_, hgt, hk⟩
    · exact DupKey.noConfusion hk
    · have htag : d1.name ++ '_' :: d2.name = pr.1.name ++ '_' :: pr.2.name := by
        injection hk
      rcases allPairs_mem docs _ hpr with ⟨hm1, hm2⟩
      rcases allPairs_mem docs _ hpair with ⟨hd1, hd2⟩
      rcases tag_inj d1.name pr.1.name d2.name pr.2.name (hund d1 hd1) (hund pr.1 hm1) htag
        with ⟨hn1, hn2⟩
      have he1 : d1 = pr.1 := name_det docs hnames _ _ hd1 hm1 hn1
      have he2 : d2 = pr.2 := name_det docs hnames _ _ hd2 hm2 hn2
      rw [he1, he2]
      exact hgt
  · intro hgt
    constructor
    · exact ⟨(d1, d2), hpair, Or.inr ⟨hhash, hgt, rfl⟩, Or.inl rfl⟩
    · exact ⟨(d1, d2), hpair, Or.inr ⟨hhash, hgt, rfl⟩, Or.inr rfl⟩

/-- C4 witness: two whitespace-variant documents with distinct
underscore-free names are grouped under their synthetic key. -/
theorem c4_witness :
    w4A.path ∈ getPaths (find_duplicates [w4A, w4B]) (DupKey.similar (simTag w4A w4B))
      ∧ w4B.path ∈ getPaths (find_duplicates [w4A, w4B]) (DupKey.similar (simTag w4A w4B)) :=
  (c4_similarity_grouping_amended [w4A, w4B] w4A w4B (by decide) (by decide) (by decide)
      (by decide)).mpr
    (by rw [← similarity_gt_iff]; decide)

/-- C5: in a three-document corpus where exactly two documents have
identical content and the third is neither an exact nor a near
duplicate of either, the duplicate map is exactly one group keyed by
the shared hash, containing exactly the two paths, without
repetition. -/
theorem c5_exact_duplicate_group (docs : List Doc) (a b c : Doc)
    (harr : docs = [a, b, c] ∨ docs = [a, c, b] ∨ docs = [c, a, b])
    (hab : a.content = b.content)
    (hac : a.content ≠ c.content) (hbc : b.content ≠ c.content)
    (hsac : similarityQ a.content c.content ≤ 17/20)
    (hsca : similarityQ c.content a.content ≤ 17/20)
    (hsbc : similarityQ b.content c.content ≤ 17/20)
    (hscb : similarityQ c.content b.content ≤ 17/20)
    (hpab : a.path ≠ b.path) :
    find_duplicates docs = [(DupKey.digest a.content, [a.path, b.path])] := by
  have gac := similarity_gt_false_of_le _ _ hsac
  have gca := similarity_gt_false_of_le _ _ hsca
  have gbc := similarity_gt_false_of_le _ _ hsbc
  have gcb := similarity_gt_false_of_le _ _ hscb
  have hca : c.content ≠ a.content := fun h => hac h.symm
  have hcb : c.content ≠ b.content := fun h => hbc h.symm
  rcases harr with rfl | rfl | rfl
  · unfold find_duplicates rawDupMap
    rw [show allPairs [a, b, c] = [(a, b), (a, c), (b, c)] from rfl]
    rw [List.foldl_cons, List.foldl_cons, List.foldl_cons, List.foldl_nil]
    rw [pairStep_digest _ _ _ hab]
    rw [show addPaths [] (DupKey.digest a.content) [a.path, b.path]
        = [(DupKey.digest a.content, [a.path, b.path])] from rfl]
    rw [pairStep_skip _ _ _ hac gac, pairStep_skip _ _ _ hbc gbc]
    simp [List.dedup_cons_of_not_mem, hpab]
  · unfold find_duplicates rawDupMap
    rw [show allPairs [a, c, b] = [(a, c), (a, b), (c, b)] from rfl]
    rw [List.foldl_cons, List.foldl_cons, List.foldl_cons, List.foldl_nil]
    rw [pairStep_skip _ _ _ hac gac]
    rw [pairStep_digest _ _ _ hab]
    rw [show addPaths [] (DupKey.digest a.content) [a.path, b.path]
        = [(DupKey.digest a.content, [a.path, b.path])] from rfl]
    rw [pairStep_skip _ _ _ hcb gcb]
    simp [List.dedup_cons_of_not_mem, hpab]
  · unfold find_duplicates rawDupMap
    rw [show allPairs [c, a, b] = [(c, a), (c, b), (a, b)] from rfl]
    rw [List.foldl_cons, List.foldl_cons, List.foldl_cons, List.foldl_nil]
    rw [pairStep_skip _ _ _ hca gca, pairStep_skip _ _ _ hcb gcb]
    rw [pairStep_digest _ _ _ hab]
    rw [show addPaths [] (DupKey.digest a.content) [a.path, b.path]
        = [(DupKey.digest a.content, [a.path, b.path])] from rfl]
    simp [List.dedup_cons_of_not_mem, hpab]

/-- C5 witness: a concrete three-document corpus with one exact
duplicate pair. -/
theorem c5_witness :
    find_duplicates [w5A, w5B, w5C] = [(DupKey.digest w5A.content, [w5A.path, w5B.path])] :=
  c5_exact_duplicate_group [w5A, w5B, w5C] w5A w5B w5C (Or.inl rfl) (by decide) (by decide)
    (by decide)
    (similarity_le_of_gt_false _ _ (by decide)) (similarity_le_of_gt_false _ _ (by decide))
    (similarity_le_of_gt_false _ _ (by decide)) (similarity_le_of_gt_false _ _ (by decide))
    (by decide)


theorem pyLower_toNat_of_upper (c : Char) (h : 65 ≤ c.toNat ∧ c.toNat ≤ 90) :
    (pyLower c).toNat = c.toNat + 32 := by
  have hv : (c.toNat + 32).isValidChar := Or.inl (by omega)
  unfold pyLower
  rw [if_pos h]
  unfold Char.ofNat
  rw [dif_pos hv]
  rfl

theorem pyLower_fix (d : Char) (h : ¬ (65 ≤ d.toNat ∧ d.toNat ≤ 90)) : pyLower d = d := by
  unfold pyLower
  rw [if_neg h]

theorem pyLower_not_upper (c : Char) : ¬ (65 ≤ (pyLower c).toNat ∧ (pyLower c).toNat ≤ 90) := by
  by_cases h : 65 ≤ c.toNat ∧ c.toNat ≤ 90
  · rw [pyLower_toNat_of_upper c h]; omega
  · rw [pyLower_fix c h]; exact h

theorem pyLower_idem (c : Char) : pyLower (pyLower c) = pyLower c :=
  pyLower_fix _ (pyLower_not_upper c)

theorem pyLower_ne_R (c : Char) : pyLower c ≠ 'R' := fun h => by
  have hu := pyLower_not_upper c
  rw [h] at hu
  exact hu (by decide)

theorem toHyphen_ne_underscore (c : Char) : toHyphen c ≠ '_' := by
  unfold toHyphen
  by_cases h : c == '_'
  · rw [if_pos h]; decide
  · rw [if_neg h]
    intro he
    exact h (by rw [he]; decide)

theorem toHyphen_fix (d : Char) (h : d ≠ '_') : toHyphen d = d := by
  unfold toHyphen
  rw [if_neg (fun hb => h (eq_of_beq hb))]

theorem pyLower_toHyphen_ne_underscore (c : Char) : pyLower (toHyphen c) ≠ '_' := by
  by_cases h : 65 ≤ (toHyphen c).toNat ∧ (toHyphen c).toNat ≤ 90
  · intro he
    have hn := pyLower_toNat_of_upper _ h
    rw [he] at hn
    have h95 : ('_').toNat = 95 := by decide
    omega
  · rw [pyLower_fix _ h]
    exact toHyphen_ne_underscore c

theorem toHyphen_pyLower_fix (c : Char) : toHyphen (pyLower (toHyphen c)) = pyLower (toHyphen c) :=
  toHyphen_fix _ (pyLower_toHyphen_ne_underscore c)

theorem noHH_cons (a : Char) (l : Str) : noHH (a :: l) = (!(a == '-' && headH l) && noHH l) := by
  cases l with
  | nil => simp [noHH, headH]
  | cons b t => rfl

theorem noHH_tail (a : Char) (l : Str) (h : noHH (a :: l) = true) : noHH l = true := by
  rw [noHH_cons] at h
  exact (Bool.and_eq_true_iff.mp h).2

theorem lastH_tail (a : Char) (t : Str) (h : lastH (a :: t) = false) : lastH t = false := by
  cases t with
  | nil => rfl
  | cons b t' => exact h

theorem headH_append_left : ∀ (x y : Str), x ≠ [] → headH (x ++ y) = headH x
  | [], _, h => absurd rfl h
  | _ :: _, _, _ => rfl

theorem headH_reverse : ∀ (l : Str), headH l.reverse = lastH l
  | [] => rfl
  | [a] => by rfl
  | a :: b :: t => by
    rw [show (a :: b :: t).reverse = ((b :: t).reverse) ++ [a] from by simp]
    rw [headH_append_left _ _ (by simp)]
    rw [headH_reverse (b :: t)]
    rfl

theorem lastH_reverse (l : Str) : lastH l.reverse = headH l := by
  have h := headH_reverse l.reverse
  rw [List.reverse_reverse] at h
  exact h.symm

theorem noHH_concat : ∀ (l : Str) (a : Char),
    noHH (l ++ [a]) = (noHH l && !(lastH l && a == '-'))
  | [], a => by simp [noHH, lastH]
  | [b], a => by simp [noHH, lastH, headH]
  | b :: c :: t, a => by
    rw [show (b :: c :: t) ++ [a] = b :: ((c :: t) ++ [a]) from rfl]
    rw [show noHH (b :: ((c :: t) ++ [a]))
        = (!(b == '-' && c == '-') && noHH ((c :: t) ++ [a])) from rfl]
    rw [noHH_concat (c :: t) a]
    rw [show lastH (b :: c :: t) = lastH (c :: t) from rfl]
    rw [show noHH (b :: c :: t) = (!(b == '-' && c == '-') && noHH (c :: t)) from rfl]
    rw [Bool.and_assoc]

theorem noHH_reverse : ∀ (l : Str), noHH l.reverse = noHH l
  | [] => rfl
  | [a] => by rfl
  | a :: b :: t => by
    rw [show (a :: b :: t).reverse = ((b :: t).reverse) ++ [a] from by simp]
    rw [noHH_concat, noHH_reverse (b :: t), lastH_reverse]
    rw [show headH (b :: t) = (b == '-') from rfl]
    rw [show noHH (a :: b :: t) = (!(a == '-' && b == '-') && noHH (b :: t)) from rfl]
    rw [Bool.and_comm (b == '-') (a == '-')]
    rw [Bool.and_comm]

theorem noHH_append_right : ∀ (l1 l2 : Str), noHH (l1 ++ l2) = true → noHH l2 = true := by
  intro l1
  induction l1 with
  | nil => intro l2 h; exact h
  | cons a t ih =>
    intro l2 h
    rw [List.cons_append] at h
    exact ih l2 (noHH_tail _ _ h)

theorem headH_take (l : Str) (n : Nat) (h : headH l = false) : headH (l.take n) = false := by
  cases l with
  | nil => cases n <;> rfl
  | cons a t =>
    cases n with
    | zero => rfl
    | succ m => exact h

theorem noHH_take : ∀ (l : Str) (n : Nat), noHH l = true → noHH (l.take n) = true
  | [], n, _ => by cases n <;> rfl
  | _ :: _, 0, _ => rfl
  | a :: t, n + 1, h => by
    rw [show (a :: t).take (n + 1) = a :: t.take n from rfl]
    rw [noHH_cons]
    rw [noHH_take t n (noHH_tail _ _ h)]
    rw [Bool.and_true]
    cases hA : a == '-' with
    | false => rfl
    | true =>
      cases hH : headH (t.take n) with
      | false => rfl
      | true =>
        exfalso
        have hHt : headH t = true := by
          cases t with
          | nil => cases n <;> exact Bool.noConfusion hH
          | cons b t' =>
            cases n with
            | zero => exact Bool.noConfusion hH
            | succ m => exact hH
        rw [noHH_cons, hA, hHt] at h
        simp at h

theorem bool_not_true {b : Bool} (h : (!b) = true) : b = false := by
  cases b with
  | false => rfl
  | true => exact Bool.noConfusion h

theorem mem_collapseAux : ∀ (l : Str) (b : Bool) (x : Char), x ∈ collapseAux b l → x ∈ l := by
  intro l
  induction l with
  | nil => intro b x h; simp [collapseAux] at h
  | cons a t ih =>
    intro b x h
    unfold collapseAux at h
    by_cases ha : a == '-'
    · rw [if_pos ha] at h
      have ha' : a = '-' := eq_of_beq ha
      cases b with
      | true =>
        rw [if_pos rfl] at h
        exact List.mem_cons_of_mem _ (ih true x h)
      | false =>
        rw [if_neg Bool.false_ne_true] at h
        rcases List.mem_cons.mp h with rfl | h'
        · rw [ha']; exact List.mem_cons_self _ _
        · exact List.mem_cons_of_mem _ (ih true x h')
    · rw [if_neg ha] at h
      rcases List.mem_cons.mp h with rfl | h'
      · exact List.mem_cons_self _ _
      · exact List.mem_cons_of_mem _ (ih false x h')

theorem mem_dropHeadHyphen (l : Str) (x : Char) (h : x ∈ dropHeadHyphen l) : x ∈ l := by
  unfold dropHeadHyphen at h
  by_cases hh : headH l
  · rw [if_pos hh] at h
    exact List.mem_of_mem_tail h
  · rwa [if_neg hh] at h

theorem mem_stripEdge (l : Str) (x : Char) (h : x ∈ stripEdgeHyphens l) : x ∈ l := by
  unfold stripEdgeHyphens at h
  rw [List.mem_reverse] at h
  have h2 := mem_dropHeadHyphen _ _ h
  rw [List.mem_reverse] at h2
  exact mem_dropHeadHyphen _ _ h2

theorem cutAtLastHyphen_take (l : Str) : ∃ n, cutAtLastHyphen l = l.take n := by
  unfold cutAtLastHyphen
  rcases hdw : l.reverse.dropWhile (fun c => !(c == '-')) with _ | ⟨d, after⟩
  · exact ⟨l.length, (List.take_length l).symm⟩
  · refine ⟨after.reverse.length, ?_⟩
    have hsplit : l.reverse.takeWhile (fun c => !(c == '-')) ++ (d :: after) = l.reverse := by
      rw [← hdw]; exact List.takeWhile_append_dropWhile _ _
    have hl : l = after.reverse ++ ([d] ++ (l.reverse.takeWhile (fun c => !(c == '-'))).reverse) := by
      have h2 := congrArg List.reverse hsplit
      rw [List.reverse_append, List.reverse_cons, List.reverse_reverse, List.append_assoc] at h2
      exact h2.symm
    conv_rhs => rw [hl]
    rw [List.take_left]

theorem mem_cutAtLastHyphen (l : Str) (x : Char) (h : x ∈ cutAtLastHyphen l) : x ∈ l := by
  rcases cutAtLastHyphen_take l with ⟨n, hc⟩
  rw [hc] at h
  exact List.take_subset n l h

theorem mem_capFifty (l : Str) (x : Char) (h : x ∈ capFifty l) : x ∈ l := by
  unfold capFifty at h
  by_cases hl : l.length > 50
  · rw [if_pos hl] at h
    exact List.take_subset 50 l (mem_cutAtLastHyphen _ _ h)
  · rwa [if_neg hl] at h

/-- Every character of the cleaned stem is the image of some character
under lowercase-after-hyphenation. -/
theorem cleanStem_chars (name : Str) : ∀ x ∈ cleanStem name, ∃ c, x = pyLower (toHyphen c) := by
  intro x hx
  unfold cleanStem at hx
  have h1 := mem_capFifty _ _ hx
  have h2 := mem_stripEdge _ _ h1
  have h3 := mem_collapseAux _ _ _ h2
  unfold lowerL at h3
  rcases List.mem_map.mp h3 with ⟨y, hy, rfl⟩
  rcases List.mem_map.mp hy with ⟨c, _, rfl⟩
  exact ⟨c, rfl⟩

theorem collapseAux_true_headH : ∀ (l : Str), headH (collapseAux true l) = false := by
  intro l
  induction l with
  | nil => rfl
  | cons a t ih =>
    unfold collapseAux
    by_cases ha : a == '-'
    · rw [if_pos ha, if_pos rfl]
      exact ih
    · rw [if_neg ha]
      rw [show headH (a :: collapseAux false t) = (a == '-') from rfl]
      exact Bool.eq_false_iff.mpr ha

theorem noHH_collapseAux : ∀ (l : Str) (b : Bool), noHH (collapseAux b l) = true := by
  intro l
  induction l with
  | nil => intro b; rfl
  | cons a t ih =>
    intro b
    unfold collapseAux
    by_cases ha : a == '-'
    · rw [if_pos ha]
      cases b with
      | true => rw [if_pos rfl]; exact ih true
      | false =>
        rw [if_neg Bool.false_ne_true]
        rw [noHH_cons, collapseAux_true_headH, Bool.and_false, Bool.not_false, Bool.true_and]
        exact ih true
    · rw [if_neg ha]
      rw [noHH_cons, Bool.eq_false_iff.mpr ha, Bool.false_and, Bool.not_false, Bool.true_and]
      exact ih false

theorem collapse_fixpoints : ∀ (l : Str), noHH l = true →
    (collapseAux false l = l ∧ (headH l = false → collapseAux true l = l)) := by
  intro l
  induction l with
  | nil => exact fun _ => ⟨rfl, fun _ => rfl⟩
  | cons a t ih =>
    intro h
    rw [noHH_cons] at h
    rcases Bool.and_eq_true_iff.mp h with ⟨h1, h2⟩
    rcases ih h2 with ⟨ihF, ihT⟩
    constructor
    · unfold collapseAux
      by_cases ha : a == '-'
      · rw [if_pos ha, if_neg Bool.false_ne_true]
        have hht : headH t = false := by
          rw [ha, Bool.true_and] at h1
          exact bool_not_true h1
        rw [ihT hht, show a = '-' from eq_of_beq ha]
      · rw [if_neg ha, ihF]
    · intro hh
      unfold collapseAux
      by_cases ha : a == '-'
      · exfalso
        rw [show headH (a :: t) = (a == '-') from rfl, ha] at hh
        exact Bool.noConfusion hh
      · rw [if_neg ha, ihF]

theorem dropHead_noHH (l : Str) (h : noHH l = true) : noHH (dropHeadHyphen l) = true := by
  unfold dropHeadHyphen
  by_cases hh : headH l
  · rw [if_pos hh]
    cases l with
    | nil => rfl
    | cons a t => exact noHH_tail a t h
  · rwa [if_neg hh]

theorem dropHead_headH (l : Str) (h : noHH l = true) : headH (dropHeadHyphen l) = false := by
  unfold dropHeadHyphen
  by_cases hh : headH l
  · rw [if_pos hh]
    cases l with
    | nil => rfl
    | cons a t =>
      rw [noHH_cons] at h
      rcases Bool.and_eq_true_iff.mp h with ⟨h1, _⟩
      rw [show headH (a :: t) = (a == '-') from rfl] at hh
      rw [hh, Bool.true_and] at h1
      exact bool_not_true h1
  · rw [if_neg hh]
    exact Bool.eq_false_iff.mpr hh

theorem dropHead_lastH (l : Str) (h : lastH l = false) : lastH (dropHeadHyphen l) = false := by
  unfold dropHeadHyphen
  by_cases hh : headH l
  · rw [if_pos hh]
    cases l with
    | nil => rfl
    | cons a t => exact lastH_tail a t h
  · rwa [if_neg hh]

theorem dropHead_fix (l : Str) (h : headH l = false) : dropHeadHyphen l = l := by
  unfold dropHeadHyphen
  rw [if_neg (by rw [h]; exact Bool.false_ne_true)]

theorem stripEdge_props (l : Str) (h : noHH l = true) :
    noHH (stripEdgeHyphens l) = true ∧ headH (stripEdgeHyphens l) = false
      ∧ lastH (stripEdgeHyphens l) = false := by
  unfold stripEdgeHyphens
  have hn1 : noHH (dropHeadHyphen l) = true := dropHead_noHH l h
  have hh1 : headH (dropHeadHyphen l) = false := dropHead_headH l h
  have hnr : noHH (dropHeadHyphen l).reverse = true := by rw [noHH_reverse]; exact hn1
  refine ⟨?_, ?_, ?_⟩
  · rw [noHH_reverse]
    exact dropHead_noHH _ hnr
  · rw [headH_reverse]
    exact dropHead_lastH _ (by rw [lastH_reverse]; exact hh1)
  · rw [lastH_reverse]
    exact dropHead_headH _ hnr

theorem stripEdge_fix (l : Str) (hh : headH l = false) (hl : lastH l = false) :
    stripEdgeHyphens l = l := by
  unfold stripEdgeHyphens
  rw [dropHead_fix _ hh]
  rw [dropHead_fix _ (by rw [headH_reverse]; exact hl)]
  exact List.reverse_reverse l

theorem dropWhile_head_false (p : Char → Bool) :
    ∀ (l : Str) (d : Char) (after : Str), l.dropWhile p = d :: after → p d = false := by
  intro l
  induction l with
  | nil => intro d a h; exact absurd h (by simp)
  | cons x t ih =>
    intro d a h
    by_cases hx : p x
    · rw [List.dropWhile_cons_of_pos hx] at h
      exact ih d a h
    · rw [List.dropWhile_cons_of_neg hx] at h
      injection h with h1 _
      rw [← h1]
      exact Bool.eq_false_iff.mpr hx

theorem cut_noHH (l : Str) (h : noHH l = true) : noHH (cutAtLastHyphen l) = true := by
  rcases cutAtLastHyphen_take l with ⟨n, hc⟩
  rw [hc]
  exact noHH_take l n h

theorem cut_headH (l : Str) (h : headH l = false) : headH (cutAtLastHyphen l) = false := by
  rcases cutAtLastHyphen_take l with ⟨n, hc⟩
  rw [hc]
  exact headH_take l n h

theorem cut_lastH (l : Str) (h : noHH l = true) : lastH (cutAtLastHyphen l) = false := by
  unfold cutAtLastHyphen
  rcases hdw : l.reverse.dropWhile (fun c => !(c == '-')) with _ | ⟨d, after⟩
  · have hall := List.dropWhile_eq_nil_iff.mp hdw
    rw [← headH_reverse]
    cases hrev : l.reverse with
    | nil => rfl
    | cons c r =>
      rw [show headH (c :: r) = (c == '-') from rfl]
      exact bool_not_true (hall c (by rw [hrev]; exact List.mem_cons_self _ _))
  · rw [lastH_reverse]
    cases hyp : headH after with
    | false => rfl
    | true =>
      exfalso
      have hd : (d == '-') = true := by
        have hp := dropWhile_head_false _ _ _ _ hdw
        cases hdb : d == '-' with
        | false => rw [hdb] at hp; exact Bool.noConfusion hp
        | true => rfl
      cases after with
      | nil => exact Bool.noConfusion hyp
      | cons e rest =>
        have he : (e == '-') = true := hyp
        have hsplit : l.reverse.takeWhile (fun c => !(c == '-')) ++ (d :: e :: rest)
            = l.reverse := by
          rw [← hdw]; exact List.takeWhile_append_dropWhile _ _
        have hnoHH : noHH l.reverse = true := by rw [noHH_reverse]; exact h
        rw [← hsplit] at hnoHH
        have h2 := noHH_append_right _ _ hnoHH
        rw [show noHH (d :: e :: rest) = (!(d == '-' && e == '-') && noHH (e :: rest)) from rfl,
          hd, he] at h2
        simp at h2

theorem cut_length_le (l : Str) : (cutAtLastHyphen l).length ≤ l.length := by
  rcases cutAtLastHyphen_take l with ⟨n, hc⟩
  rw [hc, List.length_take]
  omega

theorem capFifty_props (l : Str) (hn : noHH l = true) (hh : headH l = false)
    (hl : lastH l = false) :
    noHH (capFifty l) = true ∧ headH (capFifty l) = false ∧ lastH (capFifty l) = false
      ∧ (capFifty l).length ≤ 50 := by
  unfold capFifty
  by_cases hlen : l.length > 50
  · rw [if_pos hlen]
    have ht50 : noHH (l.take 50) = true := noHH_take l 50 hn
    refine ⟨cut_noHH _ ht50, cut_headH _ (headH_take l 50 hh), cut_lastH _ ht50, ?_⟩
    have hle := cut_length_le (l.take 50)
    rw [List.length_take] at hle
    omega
  · rw [if_neg hlen]
    exact ⟨hn, hh, hl, by omega⟩

theorem capFifty_fix (l : Str) (h : l.length ≤ 50) : capFifty l = l := by
  unfold capFifty
  rw [if_neg (by omega)]

theorem cleanStem_props (name : Str) :
    noHH (cleanStem name) = true ∧ headH (cleanStem name) = false
      ∧ lastH (cleanStem name) = false ∧ (cleanStem name).length ≤ 50 := by
  unfold cleanStem
  have h4 : noHH (collapseHyphens (lowerL ((removeMd name).map toHyphen))) = true :=
    noHH_collapseAux _ false
  rcases stripEdge_props _ h4 with ⟨hn, hh, hl⟩
  exact capFifty_props _ hn hh hl

theorem map_fix (l : Str) (f : Char → Char) (h : ∀ x ∈ l, f x = x) : l.map f = l := by
  induction l with
  | nil => rfl
  | cons a t ih =>
    rw [List.map_cons, h a (List.mem_cons_self _ _),
      ih (fun x hx => h x (List.mem_cons_of_mem _ hx))]

theorem hasSub_head_mem (c : Char) (p l : Str) (h : hasSub (c :: p) l = true) : c ∈ l := by
  induction l with
  | nil => exact absurd h (by simp [hasSub, startsWithL])
  | cons a t ih =>
    unfold hasSub at h
    rcases Bool.or_eq_true_iff.mp h with h1 | h2
    · unfold startsWithL at h1
      have hca := (Bool.and_eq_true_iff.mp h1).1
      rw [eq_of_beq hca]
      exact List.mem_cons_self _ _
    · exact List.mem_cons_of_mem _ (ih h2)

theorem hasSub_tail_false (pat : Str) (a : Char) (t : Str)
    (h : hasSub pat (a :: t) = false) : hasSub pat t = false := by
  unfold hasSub at h
  exact (Bool.or_eq_false_iff.mp h).2

theorem removeMd_append : ∀ (s : Str), hasSub (toL (".md")) s = false →
    removeMd (s ++ toL (".md")) = s
  | [], _ => rfl
  | [a], _ => by
    rw [show ([a] : Str) ++ toL (".md") = a :: '.' :: 'm' :: ['d'] from rfl]
    rw [show removeMd (a :: '.' :: 'm' :: ['d'])
        = if a == '.' && (('.' : Char) == 'm' && ('m' : Char) == 'd') then removeMd ['d']
          else a :: removeMd ('.' :: 'm' :: ['d']) from rfl]
    rw [if_neg (by simp)]
    rw [show removeMd ('.' :: 'm' :: ['d']) = ([] : Str) from by decide]
  | [a, b], _ => by
    rw [show ([a, b] : Str) ++ toL (".md") = a :: b :: '.' :: 'm' :: ['d'] from rfl]
    rw [show removeMd (a :: b :: '.' :: 'm' :: ['d'])
        = if a == '.' && (b == 'm' && ('.' : Char) == 'd') then removeMd ('m' :: ['d'])
          else a :: removeMd (b :: '.' :: 'm' :: ['d']) from rfl]
    rw [if_neg (by simp)]
    rw [show removeMd (b :: '.' :: 'm' :: ['d'])
        = if b == '.' && (('.' : Char) == 'm' && ('m' : Char) == 'd') then removeMd ['d']
          else b :: removeMd ('.' :: 'm' :: ['d']) from rfl]
    rw [if_neg (by simp)]
    rw [show removeMd ('.' :: 'm' :: ['d']) = ([] : Str) from by decide]
  | a :: b :: c :: t, h => by
    rw [show (a :: b :: c :: t) ++ toL (".md") = a :: b :: c :: (t ++ toL (".md")) from rfl]
    rw [show removeMd (a :: b :: c :: (t ++ toL (".md")))
        = if a == '.' && (b == 'm' && c == 'd') then removeMd (c :: (t ++ toL (".md"))).tail
          else a :: removeMd (b :: c :: (t ++ toL (".md"))) from rfl]
    by_cases hm : a == '.' && (b == 'm' && c == 'd')
    · exfalso
      rcases Bool.and_eq_true_iff.mp hm with ⟨ha, hbc⟩
      rcases Bool.and_eq_true_iff.mp hbc with ⟨hb, hc⟩
      rw [eq_of_beq ha, eq_of_beq hb, eq_of_beq hc] at h
      rw [show hasSub (toL (".md")) ('.' :: 'm' :: 'd' :: t) = true from by
        unfold hasSub
        rw [show startsWithL (toL (".md")) ('.' :: 'm' :: 'd' :: t) = true from by
          simp [startsWithL, toL]]
        rfl] at h
      exact Bool.noConfusion h
    · rw [if_neg hm]
      rw [show (b :: c :: (t ++ toL (".md"))) = (b :: c :: t) ++ toL (".md") from rfl]
      rw [removeMd_append (b :: c :: t) (hasSub_tail_false _ _ _ h)]

/-- C3 counterexample: `generate_clean_filename('X.MD')` is `x.md.md`
(the case-sensitive `.replace('.md', '')` runs before lowercasing), and
renormalizing `x.md.md` strips the now-lowercase `.md` and yields
`x.md`, so normalization is not idempotent. -/
theorem c3_counterexample :
    generate_clean_filename (generate_clean_filename (toL ("X.MD")))
      ≠ generate_clean_filename (toL ("X.MD")) := by decide

/-- C3 amended: normalization is idempotent for every document name
whose cleaned stem contains no occurrence of `.md` (in particular
whenever the name has no `.md` occurrences beyond its final extension
in original case); otherwise a second application can strip further
`.md` substrings, as in `X.MD` → `x.md.md` → `x.md`. -/
theorem c3_clean_filename_idem_amended (name : Str)
    (h : hasSub (toL (".md")) (cleanStem name) = false) :
    generate_clean_filename (generate_clean_filename name) = generate_clean_filename name := by
  by_cases hr : hasSub (toL ("README")) name = true
  · have h1 : generate_clean_filename name = toL ("readme.md") := by
      unfold generate_clean_filename
      rw [if_pos hr]
    rw [h1]
    decide
  · have h1 : generate_clean_filename name = cleanStem name ++ toL (".md") := by
      unfold generate_clean_filename
      rw [if_neg hr]
    have hchars := cleanStem_chars name
    rcases cleanStem_props name with ⟨hn, hh, hl, hlen⟩
    rw [h1]
    generalize hsdef : cleanStem name = s at h h1 hchars hn hh hl hlen ⊢
    have hR : hasSub (toL ("README")) (s ++ toL (".md")) = false := by
      cases hx : hasSub (toL ("README")) (s ++ toL (".md")) with
      | false => rfl
      | true =>
        exfalso
        have hmem := hasSub_head_mem 'R' _ _ hx
        rcases List.mem_append.mp hmem with hm | hm
        · rcases hchars _ hm with ⟨c, hc⟩
          exact pyLower_ne_R (toHyphen c) hc.symm
        · simp [toL] at hm
    have hstem : cleanStem (s ++ toL (".md")) = s := by
      unfold cleanStem
      rw [removeMd_append _ h]
      rw [map_fix _ toHyphen (fun x hx => by
        rcases hchars x hx with ⟨c, rfl⟩
        exact toHyphen_pyLower_fix c)]
      rw [show lowerL s = s.map pyLower from rfl]
      rw [map_fix _ pyLower (fun x hx => by
        rcases hchars x hx with ⟨c, rfl⟩
        exact pyLower_idem (toHyphen c))]
      rw [show collapseHyphens s = collapseAux false s from rfl]
      rw [(collapse_fixpoints _ hn).1]
      rw [stripEdge_fix _ hh hl]
      exact capFifty_fix _ hlen
    unfold generate_clean_filename
    rw [if_neg (by rw [hR]; exact Bool.false_ne_true)]
    rw [hstem]

/-- C3 witness: `MY_DOC.md` normalizes to `my-doc.md`, whose stem
`my-doc` contains no `.md`, and renormalization is the identity. -/
theorem c3_witness :
    generate_clean_filename (generate_clean_filename (toL ("MY_DOC.md")))
      = generate_clean_filename (toL ("MY_DOC.md")) :=
  c3_clean_filename_idem_amended (toL ("MY_DOC.md")) (by decide)
